import Mathlib

/-!
Verification of the word-rank program (`src/rank.py`).

The program computes the dictionary rank of a word over the alphabet A–Z in
two ways:

* the "tidy" method (`total_rank`): for each position, the number of strictly
  smaller letters to the right times an adjusted multinomial coefficient,
  summed, plus one;
* the "classic" method (`total_before` + 1): for each position and each
  distinct smaller letter in the suffix, a subcase count obtained from a
  common denominator, an "actual" denominator after decrementing the chosen
  letter, and an integer scaling factor.

All definitions below are shallow embeddings of the Python source; machine
integers are `Nat` (Python integers are unbounded, and the source's `//` is
floor division, which on nonnegative operands is `Nat` division).  Letters
are `Char` (Python compares single characters by code point, as does the
`Char` linear order).
-/

namespace RankWord

open Nat List

/-- Whitespace characters removed by Python `str.strip()` (ASCII fragment;
the program's inputs of interest are ASCII). -/
def isSpacePy (c : Char) : Bool :=
  c = ' ' || c = '\t' || c = '\n' || c = '\x0d' || c = '\x0b' || c = '\x0c'

/-- Python `str.strip()`: drop leading and trailing whitespace. -/
def strip (s : List Char) : List Char :=
  ((s.dropWhile isSpacePy).reverse.dropWhile isSpacePy).reverse

/-- Python `str.upper()` on each character (ASCII fragment: `Char.toUpper`
maps a–z to A–Z and leaves everything else unchanged). -/
def upper (s : List Char) : List Char :=
  s.map Char.toUpper

/-- One character of the pattern `[A-Z]`. -/
def isUpperAZ (c : Char) : Bool :=
  'A' ≤ c && c ≤ 'Z'

/-- `re.fullmatch(r"[A-Z]+", word)` succeeds: the word is nonempty and all
its characters are in A–Z (source line 34). -/
def isValidWord (w : List Char) : Bool :=
  !w.isEmpty && w.all isUpperAZ

/-- `unique_sorted = sorted(set(letters))` (source line 38): the distinct
letters in ascending order.  The sorting algorithm is irrelevant (the input
has no duplicates, so the ascending arrangement is unique); insertion sort
is used because it is structurally recursive and hence computable by the
kernel. -/
def uniqueSorted (letters : List Char) : List Char :=
  List.insertionSort (· ≤ ·) letters.dedup

/-- `letter_to_rank = \x7bch: i + 1 for i, ch in enumerate(unique_sorted)\x7d`
(source line 41): the 1-based position of a letter in the sorted list of
distinct letters. -/
def letterToRank (letters : List Char) (c : Char) : Nat :=
  (uniqueSorted letters).indexOf c + 1

/-- `ranks = [letter_to_rank[ch] for ch in letters]` (source line 42). -/
def ranks (letters : List Char) : List Nat :=
  letters.map (letterToRank letters)

/-- `smaller_right[i] = sum(ranks[j] < ranks[i] for j in range(i+1, n))`
(source lines 45–48). -/
def smaller_right (letters : List Char) (i : Nat) : Nat :=
  ((ranks letters).drop (i + 1)).countP (fun r => r < (ranks letters).getD i 0)

/-- The product `math.prod(math.factorial(v) for v in counts.values())` for
`counts = Counter(l)` (source line 70): one factorial factor per distinct
letter of `l`. -/
def denomProd (l : List Char) : Nat :=
  (l.dedup.map (fun c => (l.count c)!)).prod

/-- `adjusted_values[i]`: `math.factorial(num) // math.prod(...)` with
`num = len(r_slice) - 1` for the suffix `r_slice = letters[i:]`
(source lines 53–71).  Note the floor division. -/
def adjusted_value (l : List Char) : Nat :=
  (l.length - 1)! / denomProd l

/-- `contributions[i] = smaller_right[i] * adjusted_values[i]`
(source line 73). -/
def contribution (letters : List Char) (i : Nat) : Nat :=
  smaller_right letters i * adjusted_value (letters.drop i)

/-- `total_rank = sum(contributions) + 1` (source line 74). -/
def total_rank (letters : List Char) : Nat :=
  ((range letters.length).map (contribution letters)).sum + 1

/-! Classic step-by-step method (source lines 116–374). -/

/-- `smaller_letters = sorted(set(c for c in right_slice if c < current))`
(source line 123). -/
def smallerLetters (current : Char) (l : List Char) : List Char :=
  uniqueSorted (l.filter (fun c => c < current))

/-- `common_value = math.prod(math.factorial(v) for _, v in common_items)`
where `common_items` keeps only frequencies `> 1` (source lines 186–192). -/
def commonValue (l : List Char) : Nat :=
  (((uniqueSorted l).filter (fun c => 1 < l.count c)).map
    (fun c => (l.count c)!)).prod

/-- The frequency of `c` in `temp = Counter(right_slice); temp[smaller] -= 1`
(source lines 210–211). -/
def tempCount (l : List Char) (s c : Char) : Nat :=
  l.count c - (if c = s then 1 else 0)

/-- `actual_value = math.prod(math.factorial(v) for _, v in actual_items)`
where `actual_items` keeps only decremented frequencies `> 1`
(source lines 215–218). -/
def actualValue (l : List Char) (s : Char) : Nat :=
  (((uniqueSorted l).filter (fun c => 1 < tempCount l s c)).map
    (fun c => (tempCount l s c)!)).prod

/-- `factor = common_value // actual_value if actual_value else 1`
(source line 221). -/
def factor (l : List Char) (s : Char) : Nat :=
  if actualValue l s ≠ 0 then commonValue l / actualValue l s else 1

/-- `count = factor * (math.factorial(remaining) // (common_value if
common_value else 1))` with `remaining = len(right_slice) - 1`
(source line 257). -/
def subcaseCount (l : List Char) (s : Char) : Nat :=
  factor l s * ((l.length - 1)! / (if commonValue l ≠ 0 then commonValue l else 1))

/-- `subtotal` accumulated over the subcases of position `i`
(source lines 204–293); it is `0` when there are no smaller letters
(the `continue` on source line 201). -/
def subtotalAt (letters : List Char) (i : Nat) : Nat :=
  ((smallerLetters (letters.getD i 'A') (letters.drop i)).map
    (subcaseCount (letters.drop i))).sum

/-- `total_before`: the sum of all position subtotals (source line 374);
the classic rank is `total_before + 1` (source line 378). -/
def total_before (letters : List Char) : Nat :=
  ((range letters.length).map (subtotalAt letters)).sum

/-! Ground truth: the 1-based position of a word in the ascending
lexicographic ordering of the distinct arrangements of its letters. -/

/-- Strict lexicographic comparison of equal-length letter sequences
(for permutations of one word the length is always equal). -/
def lexLt : List Char → List Char → Bool
  | _, [] => false
  | [], _ :: _ => true
  | a :: as, b :: bs => if a < b then true else if b < a then false else lexLt as bs

/-- The true dictionary rank: one plus the number of distinct arrangements
of the word's letters that are lexicographically smaller than the word
(`List.permutations' w` lists every arrangement of `w`:
`List.mem_permutations'`). -/
def trueRank (w : List Char) : Nat :=
  ((w.permutations').dedup.countP (fun v => lexLt v w)) + 1

/-! The program's input pipeline (source lines 31–36): the raw input is
stripped and uppercased, then validated; on invalid input only a warning is
emitted (modelled as an error value carrying no result), otherwise the full
computation runs. -/

/-- The single error kind of the specification. -/
inductive RankError where
  | invalidInput
deriving DecidableEq

/-- One tidy-table row per position: letter, rank, smaller-to-right count,
adjusted value, contribution (source lines 77–79). -/
def positionRecords (letters : List Char) : List (Char × Nat × Nat × Nat × Nat) :=
  (range letters.length).map (fun i =>
    (letters.getD i 'A', (ranks letters).getD i 0, smaller_right letters i,
      adjusted_value (letters.drop i), contribution letters i))

/-- The whole program on a raw input string: strip, uppercase, validate,
then either fail with `invalidInput` (and no partial output) or return all
position records and the total rank. -/
def runProgram (input : List Char) : Except RankError ((List (Char × Nat × Nat × Nat × Nat)) × Nat) :=
  let w := upper (strip input)
  if isValidWord w then .ok (positionRecords w, total_rank w) else .error .invalidInput

end RankWord

/-! Basic order and counting lemmas. -/

namespace RankWord

open Nat List

theorem uniqueSorted_sorted (letters : List Char) :
    (uniqueSorted letters).Sorted (· ≤ ·) :=
  List.sorted_insertionSort _ letters.dedup

theorem uniqueSorted_perm (letters : List Char) :
    uniqueSorted letters ~ letters.dedup :=
  List.perm_insertionSort _ letters.dedup

theorem uniqueSorted_nodup (letters : List Char) :
    (uniqueSorted letters).Nodup :=
  (uniqueSorted_perm letters).nodup_iff.mpr letters.nodup_dedup

theorem mem_uniqueSorted {letters : List Char} {c : Char} :
    c ∈ uniqueSorted letters ↔ c ∈ letters := by
  rw [(uniqueSorted_perm letters).mem_iff, List.mem_dedup]

theorem countP_split (p q : Char → Bool) (l : List Char) :
    l.countP p = l.countP (fun x => p x && q x) + l.countP (fun x => p x && !q x) := by
  induction l with
  | nil => simp
  | cons a l ih =>
    by_cases hp : p a <;> by_cases hq : q a <;>
      simp [List.countP_cons, hp, hq, ih] <;> omega

theorem countP_lt_countP {p q : Char → Bool} {l : List Char}
    (hpq : ∀ x ∈ l, p x → q x) {w : Char} (hw : w ∈ l) (hqw : q w)
    (hpw : ¬ p w) : l.countP p < l.countP q := by
  have hsplit := countP_split q p l
  have h1 : l.countP (fun x => q x && p x) = l.countP p := by
    apply List.countP_congr
    intro x hx
    by_cases hx' : p x
    · simp [hx', hpq x hx hx']
    · simp [hx']
  have h2 : 0 < l.countP (fun x => q x && !p x) := by
    rw [List.countP_pos_iff]
    exact ⟨w, hw, by simp [hqw, hpw]⟩
  omega

theorem indexOf_eq_countP_of_sorted :
    ∀ {u : List Char}, u.Sorted (· ≤ ·) → u.Nodup → ∀ {a : Char}, a ∈ u →
      u.indexOf a = u.countP (fun x => x < a) := by
  intro u
  induction u with
  | nil => intro _ _ a ha; cases ha
  | cons b us ih =>
    intro hs hn a ha
    rcases List.mem_cons.mp ha with rfl | ha
    · rw [List.indexOf_cons_self]
      symm
      rw [List.countP_eq_zero]
      intro x hx
      rcases List.mem_cons.mp hx with rfl | hx
      · simp
      · have hbx : a ≤ x := List.rel_of_sorted_cons hs x hx
        simp [not_lt.mpr hbx]
    · have hba : b ≠ a := by
        rintro rfl
        exact (List.nodup_cons.mp hn).1 ha
      have hblt : b < a :=
        lt_of_le_of_ne (List.rel_of_sorted_cons hs a ha) hba
      rw [List.indexOf_cons_ne _ hba,
        ih hs.of_cons (List.nodup_cons.mp hn).2 ha]
      simp [List.countP_cons, hblt, Nat.add_comm]

theorem letterToRank_lt_iff {letters : List Char} {a b : Char}
    (ha : a ∈ letters) (hb : b ∈ letters) :
    letterToRank letters a < letterToRank letters b ↔ a < b := by
  have ha' : a ∈ uniqueSorted letters := mem_uniqueSorted.mpr ha
  have hb' : b ∈ uniqueSorted letters := mem_uniqueSorted.mpr hb
  unfold letterToRank
  rw [Nat.add_lt_add_iff_right,
    indexOf_eq_countP_of_sorted (uniqueSorted_sorted letters)
      (uniqueSorted_nodup letters) ha',
    indexOf_eq_countP_of_sorted (uniqueSorted_sorted letters)
      (uniqueSorted_nodup letters) hb']
  constructor
  · intro h
    by_contra hab
    push_neg at hab
    exact absurd (List.countP_mono_left (fun x _ hx => by
      simp only [decide_eq_true_eq] at hx ⊢
      exact lt_of_lt_of_le hx hab)) (not_le.mpr h)
  · intro h
    refine countP_lt_countP (fun x _ hx => ?_) ha' (by simp [h]) (by simp)
    simp only [decide_eq_true_eq] at hx ⊢
    exact hx.trans h

end RankWord

/-! Characterisation of `smaller_right` by direct letter comparison, and
product lemmas about the various factorial denominators. -/

namespace RankWord

open Nat List

theorem smaller_right_eq_countP {letters : List Char} {i : Nat}
    (hi : i < letters.length) :
    smaller_right letters i
      = (letters.drop (i + 1)).countP (fun x => x < letters.getD i 'A') := by
  unfold smaller_right ranks
  rw [← List.map_drop, List.countP_map]
  have hgd : (letters.map (letterToRank letters)).getD i 0
      = letterToRank letters (letters.getD i 'A') := by
    rw [List.getD_eq_getElem _ _ (by simpa using hi), List.getElem_map,
      List.getD_eq_getElem _ _ hi]
  rw [hgd]
  apply List.countP_congr
  intro x hx
  have hxmem : x ∈ letters := List.mem_of_mem_drop hx
  have hcur : letters.getD i 'A' ∈ letters := by
    rw [List.getD_eq_getElem _ _ hi]
    exact List.getElem_mem _
  simp only [Function.comp_apply, decide_eq_true_eq]
  exact letterToRank_lt_iff hxmem hcur

theorem prod_factorial_filter_one_lt (g : Char → Nat) (u : List Char) :
    ((u.filter (fun c => 1 < g c)).map (fun c => (g c)!)).prod
      = (u.map (fun c => (g c)!)).prod := by
  induction u with
  | nil => simp
  | cons a u ih =>
    by_cases hcnt : 1 < g a
    · rw [List.filter_cons_of_pos (by simpa using hcnt), List.map_cons,
        List.prod_cons, List.map_cons, List.prod_cons, ih]
    · have h1 : (g a)! = 1 := by
        rcases Nat.le_one_iff_eq_zero_or_eq_one.mp (not_lt.mp hcnt) with h | h <;>
          simp [h]
      rw [List.filter_cons_of_neg (by simpa using hcnt), List.map_cons,
        List.prod_cons, ih, h1, one_mul]

end RankWord

namespace RankWord

open Nat List

theorem toFinset_dedup_eq (l : List Char) : l.dedup.toFinset = l.toFinset := by
  ext c
  simp [List.mem_dedup]

theorem denomProd_eq_prod_toFinset (l : List Char) :
    denomProd l = ∏ c ∈ l.toFinset, (l.count c)! := by
  rw [denomProd, ← List.prod_toFinset _ l.nodup_dedup, toFinset_dedup_eq]

theorem denomProd_pos (l : List Char) : 0 < denomProd l := by
  rw [denomProd_eq_prod_toFinset]
  exact Finset.prod_pos (fun c _ => Nat.factorial_pos _)

theorem commonValue_eq_denomProd (l : List Char) : commonValue l = denomProd l := by
  rw [commonValue, denomProd,
    (((uniqueSorted_perm l).filter _).map _).prod_eq,
    prod_factorial_filter_one_lt (fun c => l.count c) l.dedup]

theorem commonValue_pos (l : List Char) : 0 < commonValue l := by
  rw [commonValue_eq_denomProd]; exact denomProd_pos l

theorem actualValue_eq_full (l : List Char) (s : Char) :
    actualValue l s = (l.dedup.map (fun c => (tempCount l s c)!)).prod := by
  rw [actualValue,
    (((uniqueSorted_perm l).filter _).map _).prod_eq,
    prod_factorial_filter_one_lt (tempCount l s) l.dedup]

theorem actualValue_pos (l : List Char) (s : Char) : 0 < actualValue l s := by
  rw [actualValue_eq_full]
  apply List.prod_pos
  intro x hx
  simp only [List.mem_map] at hx
  obtain ⟨c, _, rfl⟩ := hx
  exact Nat.factorial_pos _

theorem denomProd_decrement {l : List Char} {s : Char} (hs : s ∈ l) :
    denomProd l = l.count s * actualValue l s := by
  have hsf : s ∈ l.toFinset := List.mem_toFinset.mpr hs
  have h1 : actualValue l s = ∏ c ∈ l.toFinset, (tempCount l s c)! := by
    rw [actualValue_eq_full, ← List.prod_toFinset _ l.nodup_dedup,
      toFinset_dedup_eq]
  rw [denomProd_eq_prod_toFinset, h1,
    ← Finset.mul_prod_erase _ _ hsf, ← Finset.mul_prod_erase _ _ hsf]
  have h2 : ∏ c ∈ l.toFinset.erase s, (tempCount l s c)!
      = ∏ c ∈ l.toFinset.erase s, (l.count c)! := by
    refine Finset.prod_congr rfl (fun c hc => ?_)
    have hne : c ≠ s := Finset.ne_of_mem_erase hc
    simp [tempCount, hne]
  rw [h2]
  have hpos : 0 < l.count s := List.count_pos_iff.mpr hs
  obtain ⟨k, hk⟩ := Nat.exists_eq_succ_of_ne_zero (Nat.pos_iff_ne_zero.mp hpos)
  have ht : tempCount l s s = k := by simp [tempCount, hk]
  rw [ht, hk, Nat.factorial_succ, Nat.succ_eq_add_one]
  ring

theorem factor_eq_count {l : List Char} {s : Char} (hs : s ∈ l) :
    factor l s = l.count s := by
  rw [factor, if_pos (Nat.pos_iff_ne_zero.mp (actualValue_pos l s)),
    commonValue_eq_denomProd, denomProd_decrement hs,
    Nat.mul_div_cancel _ (actualValue_pos l s)]

theorem commonValue_mod_actual {l : List Char} {s : Char} (hs : s ∈ l) :
    commonValue l % actualValue l s = 0 := by
  rw [commonValue_eq_denomProd, denomProd_decrement hs, Nat.mul_mod_left]

theorem subcaseCount_eq {l : List Char} {s : Char} (hs : s ∈ l) :
    subcaseCount l s = l.count s * ((l.length - 1)! / denomProd l) := by
  rw [subcaseCount, factor_eq_count hs,
    if_pos (Nat.pos_iff_ne_zero.mp (commonValue_pos l)), commonValue_eq_denomProd]

theorem mem_smallerLetters {cur : Char} {l : List Char} {s : Char} :
    s ∈ smallerLetters cur l ↔ s ∈ l ∧ s < cur := by
  rw [smallerLetters, mem_uniqueSorted, List.mem_filter]
  simp

theorem sum_count_smallerLetters (cur : Char) (l : List Char) :
    ((smallerLetters cur l).map (fun s => l.count s)).sum
      = l.countP (fun c => c < cur) := by
  have hperm : smallerLetters cur l ~ l.dedup.filter (fun c => c < cur) := by
    refine (List.perm_ext_iff_of_nodup (uniqueSorted_nodup _)
      (l.nodup_dedup.filter _)).mpr (fun a => ?_)
    rw [mem_uniqueSorted, List.mem_filter, List.mem_filter, List.mem_dedup]
  rw [(hperm.map _).sum_eq]
  exact List.sum_map_count_dedup_filter_eq_countP _ l

end RankWord

/-! Position-level equivalence of the tidy and classic methods. -/

namespace RankWord

open Nat List

theorem drop_eq_getD_cons {letters : List Char} {i : Nat}
    (hi : i < letters.length) :
    letters.drop i = letters.getD i 'A' :: letters.drop (i + 1) := by
  rw [List.getD_eq_getElem _ _ hi]
  exact List.drop_eq_getElem_cons hi

theorem countP_lt_drop {letters : List Char} {i : Nat}
    (hi : i < letters.length) :
    (letters.drop i).countP (fun c => c < letters.getD i 'A')
      = (letters.drop (i + 1)).countP (fun c => c < letters.getD i 'A') := by
  rw [drop_eq_getD_cons hi, List.countP_cons_of_neg]
  simp

theorem subtotalAt_eq_contribution {letters : List Char} {i : Nat}
    (hi : i < letters.length) :
    subtotalAt letters i = contribution letters i := by
  have hmap : (smallerLetters (letters.getD i 'A') (letters.drop i)).map
        (subcaseCount (letters.drop i))
      = (smallerLetters (letters.getD i 'A') (letters.drop i)).map
        (fun s => (letters.drop i).count s
          * (((letters.drop i).length - 1)! / denomProd (letters.drop i))) :=
    List.map_congr_left (fun s hsmem =>
      subcaseCount_eq (mem_smallerLetters.mp hsmem).1)
  rw [subtotalAt, hmap, List.sum_map_mul_right, sum_count_smallerLetters,
    countP_lt_drop hi, contribution, smaller_right_eq_countP hi, adjusted_value]

end RankWord

/-! Claim theorems: equivalence of the two methods, factor exactness,
occurrence sums, and the subcase-count formula. -/

namespace RankWord

open Nat List

/-- C2: for every valid word, the tidy and the classic method agree
position by position (each contribution equals the classic subtotal at the
same position), and consequently `total_rank = total_before + 1`. -/
theorem tidy_eq_classic (letters : List Char)
    (hw : isValidWord letters = true) :
    (∀ i, i < letters.length → contribution letters i = subtotalAt letters i)
      ∧ total_rank letters = total_before letters + 1 := by
  have hpos : ∀ i, i < letters.length →
      contribution letters i = subtotalAt letters i :=
    fun i hi => (subtotalAt_eq_contribution hi).symm
  refine ⟨hpos, ?_⟩
  rw [total_rank, total_before]
  congr 1
  exact congrArg List.sum
    (List.map_congr_left (fun i hi => hpos i (List.mem_range.mp hi)))

/-- Witness for `tidy_eq_classic` at the concrete word BBAA. -/
theorem tidy_eq_classic_witness :
    total_rank ("BBAA".toList) = total_before ("BBAA".toList) + 1 :=
  (tidy_eq_classic ("BBAA".toList) (by decide)).2

/-- C6: for every valid word and every position, the occurrence counts of
the distinct smaller letters present in the suffix sum to the
smaller-to-right count of that position. -/
theorem sum_occ_eq_smaller_right (letters : List Char) (i : Nat)
    (hw : isValidWord letters = true) (hi : i < letters.length) :
    ((smallerLetters (letters.getD i 'A') (letters.drop i)).map
      (fun s => (letters.drop i).count s)).sum = smaller_right letters i := by
  rw [sum_count_smallerLetters, countP_lt_drop hi, smaller_right_eq_countP hi]

/-- Witness for `sum_occ_eq_smaller_right` at BBAA, position 0. -/
theorem sum_occ_eq_smaller_right_witness :
    ((smallerLetters (("BBAA".toList).getD 0 'A') (("BBAA".toList).drop 0)).map
      (fun s => (("BBAA".toList).drop 0).count s)).sum
        = smaller_right ("BBAA".toList) 0 :=
  sum_occ_eq_smaller_right ("BBAA".toList) 0 (by decide) (by decide)

/-- C10: for every valid word, position, and distinct smaller letter of the
suffix, the classic factor `common_value // actual_value` is an exact
division (remainder zero) and equals the number of occurrences of the
letter in the suffix. -/
theorem factor_exact (letters : List Char) (i : Nat) (s : Char)
    (hw : isValidWord letters = true) (hi : i < letters.length)
    (hs : s ∈ smallerLetters (letters.getD i 'A') (letters.drop i)) :
    commonValue (letters.drop i) % actualValue (letters.drop i) s = 0
      ∧ factor (letters.drop i) s = (letters.drop i).count s :=
  ⟨commonValue_mod_actual (mem_smallerLetters.mp hs).1,
    factor_eq_count (mem_smallerLetters.mp hs).1⟩

/-- Witness for `factor_exact` at BAA, position 0, smaller letter A. -/
theorem factor_exact_witness :
    commonValue (("BAA".toList).drop 0) % actualValue (("BAA".toList).drop 0) 'A' = 0
      ∧ factor (("BAA".toList).drop 0) 'A' = (("BAA".toList).drop 0).count 'A' :=
  factor_exact ("BAA".toList) 0 'A' (by decide) (by decide) (by decide)

/-- Formula of the specification (section 4.2 step 4), written from the
spec's words for comparison with the code: `count = occ × ((n−i−1)! / D_s)`
where `D_s` is the factorial-product denominator of the frequency profile
after decrementing the chosen smaller letter (`actualValue`). -/
def specSubcaseCount (l : List Char) (s : Char) : Nat :=
  l.count s * ((l.length - 1)! / actualValue l s)

/-- C3 counterexample: for the word BAA at position 0 with smaller letter A
(two occurrences in the suffix), the program computes subcase count 2 — the
correct number of arrangements starting with A — while the spec formula
`occ × ((n−i−1)! / D_s)` yields 4. -/
theorem subcase_spec_formula_counterexample :
    'A' ∈ smallerLetters (("BAA".toList).getD 0 'A') (("BAA".toList).drop 0)
      ∧ subcaseCount (("BAA".toList).drop 0) 'A' = 2
      ∧ specSubcaseCount (("BAA".toList).drop 0) 'A' = 4
      ∧ trueRank ("BAA".toList) = 3
      ∧ total_before ("BAA".toList) + 1 = 3 := by
  decide

/-- C3 amended: the classic subcase count equals
`occ × ((n−i−1)! / D)` where `D` is the common (undecremented)
factorial-product denominator of `FrequencyProfile(i)` and the division is
the floor division the program performs. -/
theorem subcaseCount_formula (letters : List Char) (i : Nat) (s : Char)
    (hw : isValidWord letters = true) (hi : i < letters.length)
    (hs : s ∈ smallerLetters (letters.getD i 'A') (letters.drop i)) :
    subcaseCount (letters.drop i) s
      = (letters.drop i).count s
        * (((letters.drop i).length - 1)! / commonValue (letters.drop i)) := by
  rw [subcaseCount_eq (mem_smallerLetters.mp hs).1, commonValue_eq_denomProd]

/-- Witness for `subcaseCount_formula` at BAA, position 0, letter A. -/
theorem subcaseCount_formula_witness :
    subcaseCount (("BAA".toList).drop 0) 'A'
      = (("BAA".toList).drop 0).count 'A'
        * (((("BAA".toList).drop 0).length - 1)! / commonValue (("BAA".toList).drop 0)) :=
  subcaseCount_formula ("BAA".toList) 0 'A' (by decide) (by decide) (by decide)

end RankWord

/-! Claim theorems: the code bug in the tidy rank, distinct-letter words,
order dependence, and the input pipeline. -/

namespace RankWord

open Nat List

/-- C1 (code-bug evidence): at the word BBAA the program computes
total_rank 5, but BBAA is the 6th of the six distinct arrangements
AABB, ABAB, ABBA, BAAB, BABA, BBAA in ascending lexicographic order.
The floor division in `adjusted_values` truncates 3! / (2!·2!) to 1 at
position 0, losing rank mass. -/
theorem total_rank_BBAA_violation :
    total_rank ("BBAA".toList) = 5 ∧ trueRank ("BBAA".toList) = 6 := by
  decide

/-- The standard factorial-based permutation rank, written from the spec's
words (section 8) as the reference value for all-distinct-letter words: one
plus, for each position, the number of smaller letters to its right times
the factorial of the number of later positions. -/
def factorialRank (w : List Char) : Nat :=
  ((range w.length).map (fun i =>
    ((w.drop (i + 1)).countP (fun x => x < w.getD i 'A'))
      * (w.length - 1 - i)!)).sum + 1

/-- C7: for every valid word with pairwise distinct letters, total_rank
equals the standard factorial-based permutation rank; in particular
rank BA = 2, rank CBA = 6, rank ABC = 1, and every word of length 1 has
total_rank 1. -/
theorem distinct_letters_rank :
    (∀ w : List Char, isValidWord w = true → w.Nodup →
        total_rank w = factorialRank w)
      ∧ total_rank ("BA".toList) = 2 ∧ total_rank ("CBA".toList) = 6
      ∧ total_rank ("ABC".toList) = 1
      ∧ ∀ c : Char, total_rank [c] = 1 := by
  refine ⟨?_, by decide, by decide, by decide, ?_⟩
  · intro w hv hnd
    rw [total_rank, factorialRank]
    congr 1
    apply congrArg List.sum
    apply List.map_congr_left
    intro i hi
    have hi' : i < w.length := List.mem_range.mp hi
    rw [contribution, smaller_right_eq_countP hi', adjusted_value]
    have hdenom : denomProd (w.drop i) = 1 := by
      apply List.prod_eq_one
      intro x hx
      simp only [List.mem_map] at hx
      obtain ⟨c, hc, rfl⟩ := hx
      have hcmem : c ∈ w.drop i := List.mem_dedup.mp hc
      have hone : (w.drop i).count c = 1 :=
        List.count_eq_one_of_mem (hnd.sublist (List.drop_sublist _ _)) hcmem
      rw [hone, Nat.factorial_one]
    rw [hdenom, Nat.div_one, List.length_drop, Nat.sub_right_comm]
  · intro c
    have h0 : contribution [c] 0 = 0 := by
      rw [contribution, smaller_right]
      simp [ranks]
    rw [total_rank, show List.range [c].length = [0] from rfl]
    simp [h0]

/-- Witness for `distinct_letters_rank` at the concrete word BAC. -/
theorem distinct_letters_rank_witness :
    total_rank ("BAC".toList) = factorialRank ("BAC".toList) :=
  distinct_letters_rank.1 ("BAC".toList) (by decide) (by decide)

/-- C8: total_rank depends on the exact letter sequence, not on the letter
multiset: AAB and ABA are arrangements of the same letters but receive the
different ranks 1 and 2. -/
theorem rank_depends_on_order :
    ("AAB".toList).Perm ("ABA".toList)
      ∧ total_rank ("AAB".toList) = 1
      ∧ total_rank ("ABA".toList) = 2
      ∧ total_rank ("AAB".toList) ≠ total_rank ("ABA".toList) := by
  decide

theorem isValidWord_true_iff (w : List Char) :
    isValidWord w = true ↔ w ≠ [] ∧ ∀ c ∈ w, 'A' ≤ c ∧ c ≤ 'Z' := by
  rw [isValidWord]
  simp [List.all_eq_true, isUpperAZ, List.isEmpty_iff]

/-- C5 counterexample: the input abc consists of characters outside A–Z
(lowercase letters), yet the program does not raise InvalidInputError - it
uppercases first and accepts the word. -/
theorem invalid_input_claim_counterexample :
    ('a' ∈ "abc".toList ∧ ¬('A' ≤ 'a' ∧ 'a' ≤ 'Z'))
      ∧ (runProgram ("abc".toList)).isOk = true := by
  decide

/-- C5 amended: the program raises InvalidInputError exactly when the
stripped, uppercased input is empty or still contains a character outside
A–Z, and in that case produces no output at all; when the processed form is
a valid A–Z word the whole computation succeeds. -/
theorem invalid_input_characterisation (input : List Char) :
    (runProgram input = .error .invalidInput
      ↔ upper (strip input) = []
          ∨ ∃ c ∈ upper (strip input), ¬('A' ≤ c ∧ c ≤ 'Z'))
      ∧ (isValidWord (upper (strip input)) = true
          → runProgram input = .ok (positionRecords (upper (strip input)),
              total_rank (upper (strip input)))) := by
  constructor
  · rw [runProgram]
    by_cases hv : isValidWord (upper (strip input)) = true
    · simp only [hv, if_true]
      constructor
      · intro h
        cases h
      · intro h
        exfalso
        rcases (isValidWord_true_iff _).mp hv with ⟨hne, hall⟩
        rcases h with h | ⟨c, hc, hnc⟩
        · exact hne h
        · exact hnc (hall c hc)
    · simp only [hv, if_false]
      constructor
      · intro _
        by_cases hemp : upper (strip input) = []
        · exact Or.inl hemp
        · have hnall : ¬ ∀ c ∈ upper (strip input), 'A' ≤ c ∧ c ≤ 'Z' :=
            fun hall => hv ((isValidWord_true_iff _).mpr ⟨hemp, hall⟩)
          rcases not_forall.mp hnall with ⟨c, hc⟩
          rcases Classical.not_imp.mp hc with ⟨hcmem, hcneg⟩
          exact Or.inr ⟨c, hcmem, hcneg⟩
      · intro _
        rfl
  · intro h
    rw [runProgram]
    simp only [h, if_true]

/-- Witness for `invalid_input_characterisation`: the input ABC! (which
contains a character outside A–Z even after processing) fails with
InvalidInputError. -/
theorem invalid_input_characterisation_witness :
    runProgram ("ABC!".toList) = .error .invalidInput :=
  (invalid_input_characterisation ("ABC!".toList)).1.mpr
    (Or.inr ⟨'!', by decide, by decide⟩)

/-- C9: the program strips surrounding whitespace and uppercases the input
before validating it, so every input whose processed form is a nonempty A–Z
word is accepted and ranked exactly as that processed word; in particular
the lowercase input mathematics is valid and is processed as MATHEMATICS. -/
theorem strip_upper_normalisation :
    (∀ input : List Char, isValidWord (upper (strip input)) = true →
        runProgram input = .ok (positionRecords (upper (strip input)),
          total_rank (upper (strip input))))
      ∧ (runProgram ("mathematics".toList)).isOk = true
      ∧ upper (strip ("mathematics".toList)) = "MATHEMATICS".toList := by
  refine ⟨?_, by decide, by decide⟩
  intro input h
  rw [runProgram]
  simp only [h, if_true]

/-- Witness for `strip_upper_normalisation` at a padded lowercase input. -/
theorem strip_upper_normalisation_witness :
    runProgram ("  mathematics ".toList)
      = .ok (positionRecords (upper (strip ("  mathematics ".toList))),
          total_rank (upper (strip ("  mathematics ".toList)))) :=
  strip_upper_normalisation.1 ("  mathematics ".toList) (by decide)

end RankWord

/-! Infrastructure for the adjacent-swap monotonicity analysis (claim C4):
permutation invariance of the denominators, a suffix recursion computing the
tidy sum, and the factorisation of the denominator product used to compare
the two positions touched by a swap. -/

namespace RankWord

open Nat List

theorem denomProd_congr {l1 l2 : List Char} (h : l1 ~ l2) :
    denomProd l1 = denomProd l2 := by
  rw [denomProd_eq_prod_toFinset, denomProd_eq_prod_toFinset,
    List.toFinset_eq_of_perm _ _ h]
  exact Finset.prod_congr rfl (fun c _ => by rw [h.count_eq])

theorem adjusted_value_congr {l1 l2 : List Char} (h : l1 ~ l2) :
    adjusted_value l1 = adjusted_value l2 := by
  rw [adjusted_value, adjusted_value, h.length_eq, denomProd_congr h]

/-- The sum of the tidy contributions, computed suffix by suffix. -/
def rankSum : List Char → Nat
  | [] => 0
  | c :: rest =>
      rest.countP (fun x => x < c) * adjusted_value (c :: rest) + rankSum rest

theorem contribution_succ (c : Char) (rest : List Char) (i : Nat)
    (hi : i < rest.length) :
    contribution (c :: rest) (i + 1) = contribution rest i := by
  have h1 : i + 1 < (c :: rest).length := by
    simp only [List.length_cons]
    omega
  rw [contribution, contribution, smaller_right_eq_countP h1,
    smaller_right_eq_countP hi]
  rfl

theorem total_rank_eq_rankSum (w : List Char) :
    total_rank w = rankSum w + 1 := by
  induction w with
  | nil => rfl
  | cons c rest ih =>
    rw [total_rank, rankSum,
      show (c :: rest).length = rest.length + 1 from rfl,
      List.range_succ_eq_map, List.map_cons, List.sum_cons, List.map_map]
    have hmap : (List.range rest.length).map ((contribution (c :: rest)) ∘ Nat.succ)
        = (List.range rest.length).map (contribution rest) :=
      List.map_congr_left
        (fun i hi => contribution_succ c rest i (List.mem_range.mp hi))
    rw [hmap]
    have hc0 : contribution (c :: rest) 0
        = rest.countP (fun x => x < c) * adjusted_value (c :: rest) := by
      rw [contribution, smaller_right_eq_countP (by simp)]
      rfl
    rw [hc0, total_rank] at *
    omega

theorem denomProd_superset {l : List Char} {S : Finset Char}
    (hS : l.toFinset ⊆ S) :
    denomProd l = ∏ c ∈ S, (l.count c)! := by
  rw [denomProd_eq_prod_toFinset]
  refine Finset.prod_subset hS (fun x _ hx => ?_)
  have hxl : x ∉ l := fun hmem => hx (List.mem_toFinset.mpr hmem)
  rw [List.count_eq_zero_of_not_mem hxl]
  rfl

theorem actualValue_eq_denomProd_erase {l : List Char} {s : Char}
    (hs : s ∈ l) :
    actualValue l s = denomProd (l.erase s) := by
  have hsub : (l.erase s).toFinset ⊆ l.toFinset := by
    intro x hx
    exact List.mem_toFinset.mpr
      (List.mem_of_mem_erase (List.mem_toFinset.mp hx))
  rw [actualValue_eq_full, ← List.prod_toFinset _ l.nodup_dedup,
    toFinset_dedup_eq, denomProd_superset hsub]
  refine Finset.prod_congr rfl (fun c _ => ?_)
  rw [List.count_erase, tempCount]
  congr 1
  by_cases h : c = s
  · subst h
    simp
  · have h2 : ¬ s = c := fun hh => h hh.symm
    simp [h, h2]

theorem sum_count_toFinset (l : List Char) :
    ∑ c ∈ l.toFinset, l.count c = l.length := by
  have h := Multiset.toFinset_sum_count_eq (l : Multiset Char)
  simpa using h

end RankWord

namespace RankWord

open Nat List

theorem fact_mul_fact_le {x : Nat} (hx : 1 ≤ x) :
    ∀ {y : Nat}, 1 ≤ y → x ! * y ! ≤ (x + y - 1)! := by
  induction x, hx using Nat.le_induction with
  | base =>
    intro y hy
    have h1 : 1 + y - 1 = y := by omega
    simp [h1]
  | succ n hn ih =>
    intro y hy
    have ihn := ih hy
    obtain ⟨z, hz⟩ : ∃ z, n + y = z + 1 := ⟨n + y - 1, by omega⟩
    calc (n + 1)! * y ! = (n + 1) * (n ! * y !) := by
          rw [Nat.factorial_succ]; ring
      _ ≤ (n + 1) * z ! := by
          rw [show n + y - 1 = z by omega] at ihn
          exact Nat.mul_le_mul_left _ ihn
      _ ≤ (z + 1) * z ! := Nat.mul_le_mul_right _ (by omega)
      _ = (z + 1)! := (Nat.factorial_succ z).symm
      _ = (n + 1 + y - 1)! := by congr 1; omega

theorem two_fact_mul_fact_le {y : Nat} (hy : 2 ≤ y) :
    ∀ {x : Nat}, 2 ≤ x → 5 ≤ x + y → 2 * (x ! * y !) ≤ (x + y - 1)! := by
  induction y, hy using Nat.le_induction with
  | base =>
    intro x hx hxy
    obtain ⟨w, hw⟩ : ∃ w, x = w + 3 := ⟨x - 3, by omega⟩
    subst hw
    rw [show w + 3 + 2 - 1 = (w + 3) + 1 by omega, Nat.factorial_succ,
      show (2:Nat)! = 2 from rfl]
    calc 2 * ((w + 3)! * 2) = 4 * (w + 3)! := by ring
      _ ≤ (w + 3 + 1) * (w + 3)! := Nat.mul_le_mul_right _ (by omega)
  | succ n hn ih =>
    intro x hx hxy
    by_cases h5 : 5 ≤ x + n
    · have ihn := ih hx h5
      obtain ⟨z, hz⟩ : ∃ z, x + n = z + 1 := ⟨x + n - 1, by omega⟩
      calc 2 * (x ! * (n + 1)!) = (n + 1) * (2 * (x ! * n !)) := by
            rw [Nat.factorial_succ]; ring
        _ ≤ (n + 1) * z ! := by
            rw [show x + n - 1 = z by omega] at ihn
            exact Nat.mul_le_mul_left _ ihn
        _ ≤ (z + 1) * z ! := Nat.mul_le_mul_right _ (by omega)
        _ = (z + 1)! := (Nat.factorial_succ z).symm
        _ = (x + (n + 1) - 1)! := by congr 1; omega
    · have hx2 : x = 2 := by omega
      have hn2 : n = 2 := by omega
      subst hx2
      subst hn2
      decide

theorem swap_div_step (D F A B C sa k X m fb : Nat) (hD0 : 0 < D)
    (hA : A = m * F / D) (hB : B = (k + 1) * F / D) (hC : C = fb * F / D)
    (hid : (k + 1) * (m * F) + sa * (fb * F)
        = (sa + k) * ((k + 1) * F) + F * X)
    (hFX : D * (k + sa + 2) ≤ F * X) :
    (sa + k) * B + 1 ≤ (k + 1) * A + sa * C := by
  have eA := Nat.div_add_mod (m * F) D
  have eB := Nat.div_add_mod ((k + 1) * F) D
  have eC := Nat.div_add_mod (fb * F) D
  rw [← hA] at eA
  rw [← hB] at eB
  rw [← hC] at eC
  have rA := Nat.mod_lt (m * F) hD0
  have rC := Nat.mod_lt (fb * F) hD0
  have e1 : (k + 1) * (D * A) + (k + 1) * ((m * F) % D) = (k + 1) * (m * F) := by
    rw [← Nat.left_distrib, eA]
  have e2 : sa * (D * C) + sa * ((fb * F) % D) = sa * (fb * F) := by
    rw [← Nat.left_distrib, eC]
  have hDB : D * B ≤ (k + 1) * F := by omega
  have h3 : (sa + k) * (D * B) ≤ (sa + k) * ((k + 1) * F) :=
    Nat.mul_le_mul_left _ hDB
  have h4 : (k + 1) * ((m * F) % D) ≤ (k + 1) * (D - 1) :=
    Nat.mul_le_mul_left _ (by omega)
  have h5 : sa * ((fb * F) % D) ≤ sa * (D - 1) :=
    Nat.mul_le_mul_left _ (by omega)
  have h6 : (k + 1) * (D - 1) + sa * (D - 1) + D ≤ D * (k + sa + 2) := by
    have h7 : (k + 1) * (D - 1) + sa * (D - 1) = (k + sa + 1) * (D - 1) := by
      ring
    have h8 : (k + sa + 1) * (D - 1) ≤ (k + sa + 1) * D :=
      Nat.mul_le_mul_left _ (by omega)
    have h9 : (k + sa + 1) * D + D = D * (k + sa + 2) := by ring
    omega
  have hfin : D * ((sa + k) * B + 1) ≤ D * ((k + 1) * A + sa * C) := by
    have hL : D * ((sa + k) * B + 1) = (sa + k) * (D * B) + D := by ring
    have hR : D * ((k + 1) * A + sa * C) = (k + 1) * (D * A) + sa * (D * C) := by
      ring
    omega
  exact Nat.le_of_mul_le_mul_left hfin hD0

end RankWord

namespace RankWord

open Nat List

/-- Core numeric inequality for the adjacent-swap comparison.  With
`fa = k + 1` copies of the lower letter and `fb = j + 1` copies of the
higher letter in the suffix, `sa` suffix letters below the lower letter,
`e` suffix letters strictly between the two, `ρ ≥ e` suffix letters that
are neither copy of the swapped pair nor below the lower letter, and
denominator `D = fa! * fb! * R` with `R` at most `(sa + ρ)!`, the floored
tidy contributions of the two touched positions strictly increase when the
higher letter is moved first. -/
theorem rank_swap_numeric (k j sa e ρ R : Nat) (hR1 : 1 ≤ R) (heρ : e ≤ ρ)
    (hRu : R ≤ (sa + ρ)!) :
    sa * ((sa + ρ + k + j + 1)! / ((k + 1)! * (j + 1)! * R))
        + (sa + k + e) * ((k + 1) * (sa + ρ + k + j)! / ((k + 1)! * (j + 1)! * R))
      < (1 + sa + k + e) * ((sa + ρ + k + j + 1)! / ((k + 1)! * (j + 1)! * R))
        + sa * ((j + 1) * (sa + ρ + k + j)! / ((k + 1)! * (j + 1)! * R)) := by
  set u := sa + ρ with hu
  set F := (sa + ρ + k + j)! with hFdef
  set D := (k + 1)! * (j + 1)! * R with hDdef
  set m := sa + ρ + k + j + 1 with hmdef
  have hD0 : 0 < D := by
    rw [hDdef]
    exact Nat.mul_pos (Nat.mul_pos (Nat.factorial_pos _) (Nat.factorial_pos _)) hR1
  have hmF : m ! = m * F := by
    rw [hmdef, hFdef, Nat.factorial_succ]
  set A := m ! / D with hA
  set B := (k + 1) * F / D with hB
  set C := (j + 1) * F / D with hC
  have hfm : k + 1 ≤ m := by omega
  have hAB : B ≤ A := by
    rw [hA, hB, hmF]
    exact Nat.div_le_div_right (Nat.mul_le_mul_right F hfm)
  have hDF : 1 ≤ u → D ≤ F := by
    intro hu1
    have h1 : (j + 1)! * u ! ≤ ((j + 1) + u - 1)! :=
      fact_mul_fact_le (by omega) hu1
    have h2 : (k + 1)! * ((j + 1) + u - 1)! ≤ ((k + 1) + ((j + 1) + u - 1) - 1)! :=
      fact_mul_fact_le (by omega) (by omega)
    have h3 : ((k + 1) + ((j + 1) + u - 1) - 1)! = F := by
      rw [hFdef]
      congr 1
      omega
    calc D = (k + 1)! * ((j + 1)! * R) := by rw [hDdef]; ring
      _ ≤ (k + 1)! * ((j + 1)! * u !) :=
          Nat.mul_le_mul_left _ (Nat.mul_le_mul_left _ (by rw [hu]; exact hRu))
      _ ≤ (k + 1)! * ((j + 1) + u - 1)! := Nat.mul_le_mul_left _ h1
      _ ≤ ((k + 1) + ((j + 1) + u - 1) - 1)! := h2
      _ = F := h3
  have hDle : D ≤ m ! := by
    rcases Nat.eq_zero_or_pos u with hu0 | hu1
    · have hRe : R = 1 := by
        have hfact : u ! = 1 := by rw [hu0, Nat.factorial_zero]
        omega
      have h2 : (k + 1)! * (j + 1)! ≤ ((k + 1) + (j + 1) - 1)! :=
        fact_mul_fact_le (by omega) (by omega)
      have h3 : ((k + 1) + (j + 1) - 1)! ≤ m ! := by
        apply Nat.factorial_le
        omega
      rw [hDdef, hRe, Nat.mul_one]
      omega
    · have h1 := hDF hu1
      have h2 : F ≤ m ! := by
        rw [hmF]
        exact Nat.le_mul_of_pos_left F (by omega)
      omega
  have hA1 : 1 ≤ A := by
    rw [hA]
    exact (Nat.one_le_div_iff hD0).mpr hDle
  suffices H : (sa + k) * B + 1 ≤ (k + 1) * A + sa * C by
    have heBA : e * B ≤ e * A := Nat.mul_le_mul_left _ hAB
    have hx1 : (1 + sa + k + e) * A = A + sa * A + k * A + e * A := by ring
    have hx2 : (sa + k + e) * B = sa * B + k * B + e * B := by ring
    have hx3 : (sa + k) * B = sa * B + k * B := by ring
    have hx4 : (k + 1) * A = k * A + A := by ring
    omega
  rcases Nat.eq_zero_or_pos sa with hsa0 | hsa1
  · have hkB : k * B ≤ k * A := Nat.mul_le_mul_left _ hAB
    have hx3 : (sa + k) * B = sa * B + k * B := by ring
    have hx4 : (k + 1) * A = k * A + A := by ring
    have hsB : sa * B = 0 := by rw [hsa0]; ring
    omega
  · have hu1 : 1 ≤ u := by omega
    have hDFu := hDF hu1
    have hBk : k + 1 ≤ B := by
      rw [hB]
      calc k + 1 = (k + 1) * D / D := (Nat.mul_div_cancel _ hD0).symm
        _ ≤ (k + 1) * F / D :=
            Nat.div_le_div_right (Nat.mul_le_mul_left _ hDFu)
    have hCj : j + 1 ≤ C := by
      rw [hC]
      calc j + 1 = (j + 1) * D / D := (Nat.mul_div_cancel _ hD0).symm
        _ ≤ (j + 1) * F / D :=
            Nat.div_le_div_right (Nat.mul_le_mul_left _ hDFu)
    rcases le_or_lt B C with hBC | hCB
    · have h1 : (k + 1) * B ≤ (k + 1) * A := Nat.mul_le_mul_left _ hAB
      have h2 : sa * B ≤ sa * C := Nat.mul_le_mul_left _ hBC
      have hx3 : (sa + k) * B = sa * B + k * B := by ring
      have hx5 : (k + 1) * B = k * B + B := by ring
      have hx4 : (k + 1) * A = k * A + A := by ring
      omega
    · set X := (k + 1) * (j + 1) + (k + 1) * ρ + sa * (j + 1) with hX
      have hid : (k + 1) * (m * F) + sa * ((j + 1) * F)
          = (sa + k) * ((k + 1) * F) + F * X := by
        rw [hX, hmdef]
        ring
      have hAmF : A = m * F / D := by rw [hA, hmF]
      rcases le_or_lt (k + sa + 2) X with hXbig | hXsmall
      · have hFX : D * (k + sa + 2) ≤ F * X := by
          calc D * (k + sa + 2) ≤ F * (k + sa + 2) :=
                Nat.mul_le_mul_right _ hDFu
            _ ≤ F * X := Nat.mul_le_mul_left _ hXbig
        exact swap_div_step D F A B C sa k X m (j + 1) hD0 hAmF hB hC hid hFX
      · have hj0 : j = 0 := by
          by_contra hj
          have h1 : (k + 1) * 2 ≤ (k + 1) * (j + 1) :=
            Nat.mul_le_mul_left _ (by omega)
          have h2 : sa * 1 ≤ sa * (j + 1) :=
            Nat.mul_le_mul_left _ (by omega)
          omega
        subst hj0
        have hρ0 : ρ = 0 := by
          by_contra hρ
          have h1 : (k + 1) * 1 ≤ (k + 1) * ρ :=
            Nat.mul_le_mul_left _ (by omega)
          have h2 : sa * 1 ≤ sa * (0 + 1) := Nat.mul_le_mul_left _ (by omega)
          have h3 : (k + 1) * 1 ≤ (k + 1) * (0 + 1) :=
            Nat.mul_le_mul_left _ (by omega)
          omega
        subst hρ0
        have he0 : e = 0 := by omega
        subst he0
        have hk1 : 1 ≤ k := by
          by_contra hk
          have hk0 : k = 0 := by omega
          subst hk0
          have hBCeq : B = C := by rw [hB, hC]
          omega
        rcases le_or_lt (2 * D) F with h2DF | h2DF
        · have hX' : X = (k + 1) + sa := by rw [hX]; ring
          have hFX : D * (k + sa + 2) ≤ F * X := by
            have s1 : D * (k + sa + 2) ≤ D * (2 * (k + 1 + sa)) :=
              Nat.mul_le_mul_left _ (by omega)
            have s2 : D * (2 * (k + 1 + sa)) = (2 * D) * (k + 1 + sa) := by ring
            have s3 : (2 * D) * (k + 1 + sa) ≤ F * (k + 1 + sa) :=
              Nat.mul_le_mul_right _ h2DF
            have s4 : F * X = F * (k + 1 + sa) := by rw [hX']
            omega
          exact swap_div_step D F A B C sa k X m (0 + 1) hD0 hAmF hB hC hid hFX
        · rcases Nat.eq_or_lt_of_le hsa1 with hsa_eq | hsa_ge
          · have hC1 : 1 ≤ C := by omega
            calc (sa + k) * B + 1 ≤ (sa + k) * A + C := by
                  have hm1 := Nat.mul_le_mul_left (sa + k) hAB
                  omega
              _ ≤ (k + 1) * A + sa * C := by
                  have h2 : (sa + k) * A = (k + 1) * A := by
                    rw [← hsa_eq]; ring
                  have h3 : sa * C = C := by rw [← hsa_eq]; ring
                  omega
          · have hsa2 : 2 ≤ sa := hsa_ge
            rcases le_or_lt 5 ((k + 1) + sa) with h5 | h5
            · exfalso
              have h1 : 2 * ((k + 1)! * sa !) ≤ ((k + 1) + sa - 1)! :=
                two_fact_mul_fact_le hsa2 (by omega) h5
              have hDle2 : D ≤ (k + 1)! * sa ! := by
                rw [hDdef]
                have hone : ((0:Nat) + 1)! = 1 := rfl
                have hstep : (k + 1)! * (0 + 1)! * R = (k + 1)! * R := by
                  rw [hone, Nat.mul_one]
                rw [hstep]
                refine Nat.mul_le_mul_left _ ?_
                have : (sa + 0)! = sa ! := by rw [Nat.add_zero]
                rw [← this]
                exact hRu
              have h3 : ((k + 1) + sa - 1)! = F := by
                rw [hFdef]
                congr 1
                omega
              have h2 : 2 * D ≤ 2 * ((k + 1)! * sa !) :=
                Nat.mul_le_mul_left _ hDle2
              omega
            · have hk1' : k = 1 := by omega
              have hsa' : sa = 2 := by omega
              subst hk1'
              subst hsa'
              have hF6 : F = 6 := by
                rw [hFdef]
                rfl
              have hD2R : D = 2 * R := by
                rw [hDdef]
                norm_num [Nat.factorial]
              have hRle2 : R ≤ 2 := by
                have h1 : u ! = 2 := by rw [hu]; decide
                omega
              have hR2 : R = 2 := by omega
              have hD4 : D = 4 := by omega
              have hA6 : A = 6 := by
                rw [hA, hD4, hmdef]
                rfl
              have hB3 : B = 3 := by
                rw [hB, hD4, hF6]
              have hC1 : C = 1 := by
                rw [hC, hD4, hF6]
              rw [hA6, hB3, hC1]
              norm_num
end RankWord

namespace RankWord

open Nat List

theorem countP_lt_le_countP_lt {a b : Char} (hab : a < b) (t : List Char) :
    t.countP (fun x => x < a) + t.count a ≤ t.countP (fun x => x < b) := by
  rw [countP_split (fun x => decide (x < b)) (fun x => decide (x < a)) t]
  have h1 : t.countP (fun x => decide (x < b) && decide (x < a))
      = t.countP (fun x => decide (x < a)) := by
    apply List.countP_congr
    intro x hx
    by_cases h : x < a
    · simp [h, h.trans hab]
    · simp [h]
  have h2 : t.count a ≤ t.countP (fun x => decide (x < b) && !decide (x < a)) := by
    rw [List.count_eq_countP]
    apply List.countP_mono_left
    intro x hx hxa
    simp only [beq_iff_eq] at hxa
    subst hxa
    simp [hab]
  omega

theorem countP_lt_add_count_le {b : Char} (t : List Char) :
    t.countP (fun x => x < b) + t.count b ≤ t.length := by
  rw [List.length_eq_countP_add_countP (fun x => decide (x < b)) t]
  have h2 : t.count b
      ≤ t.countP (fun x => decide ¬(decide (x < b) = true)) := by
    rw [List.count_eq_countP]
    apply List.countP_mono_left
    intro x hx hxb
    simp only [beq_iff_eq] at hxb
    subst hxb
    simp
  omega

theorem denomProd_two_factor (a b : Char) (t : List Char) (hab : a ≠ b) :
    ∃ R, 1 ≤ R ∧ R ≤ (t.length - t.count a - t.count b)!
      ∧ denomProd (a :: b :: t) = (t.count a + 1)! * ((t.count b + 1)! * R) := by
  set M := a :: b :: t with hM
  have haM : a ∈ M := List.mem_cons_self a _
  have hbM : b ∈ M := by
    rw [hM]
    exact List.mem_cons_of_mem a (List.mem_cons_self b t)
  have hcountaM : M.count a = t.count a + 1 := by
    rw [hM, List.count_cons_self, List.count_cons_of_ne hab]
  have hcountbM : M.count b = t.count b + 1 := by
    rw [hM, List.count_cons_of_ne (Ne.symm hab), List.count_cons_self]
  have haS : a ∈ M.toFinset := List.mem_toFinset.mpr haM
  have hbS : b ∈ (M.toFinset).erase a :=
    Finset.mem_erase.mpr ⟨Ne.symm hab, List.mem_toFinset.mpr hbM⟩
  refine ⟨∏ c ∈ ((M.toFinset).erase a).erase b, (M.count c)!, ?_, ?_, ?_⟩
  · exact Finset.prod_pos (fun c _ => Nat.factorial_pos _)
  · have hdvd := Nat.prod_factorial_dvd_factorial_sum
      (((M.toFinset).erase a).erase b) (fun c => M.count c)
    have hsum : ∑ c ∈ ((M.toFinset).erase a).erase b, M.count c
        = t.length - t.count a - t.count b := by
      have hh1 := sum_count_toFinset M
      have hh2 := (Finset.add_sum_erase _ (fun c => M.count c) haS).symm
      have hh3 := (Finset.add_sum_erase _ (fun c => M.count c) hbS).symm
      have hlen : M.length = t.length + 2 := by rw [hM]; simp
      omega
    rw [hsum] at hdvd
    exact Nat.le_of_dvd (Nat.factorial_pos _) hdvd
  · rw [denomProd_eq_prod_toFinset,
      ← Finset.mul_prod_erase _ _ haS, ← Finset.mul_prod_erase _ _ hbS,
      hcountaM, hcountbM]

end RankWord

namespace RankWord

open Nat List

theorem rankSum_swap_head {a b : Char} (hab : a < b) (t : List Char) :
    rankSum (a :: b :: t) < rankSum (b :: a :: t) := by
  have hne : a ≠ b := ne_of_lt hab
  obtain ⟨R, hR1, hRle, hDfact⟩ := denomProd_two_factor a b t hne
  set k := t.count a with hk
  set j := t.count b with hj
  set sa := t.countP (fun x => x < a) with hsadef
  set sb := t.countP (fun x => x < b) with hsbdef
  set n := t.length with hn
  have h1 : sa + k ≤ sb := countP_lt_le_countP_lt hab t
  have h2 : sb + j ≤ n := countP_lt_add_count_le t
  set e := sb - sa - k with he
  set ρ := n - sa - k - j with hρ
  have hsb : sb = sa + k + e := by omega
  have heρ : e ≤ ρ := by omega
  have hnm : n = sa + ρ + k + j := by omega
  have hRu : R ≤ (sa + ρ)! := by
    have hfix : n - k - j = sa + ρ := by omega
    rw [hfix] at hRle
    exact hRle
  -- denominator decompositions
  have hDb : denomProd (a :: b :: t) = (k + 1) * denomProd (b :: t) := by
    have hsM : a ∈ (a :: b :: t) := List.mem_cons_self _ _
    rw [denomProd_decrement hsM, actualValue_eq_denomProd_erase hsM,
      List.erase_cons_head]
    congr 1
    rw [List.count_cons_self, List.count_cons_of_ne hne]
  have hDa : denomProd (a :: b :: t) = (j + 1) * denomProd (a :: t) := by
    have hperm : (b :: a :: t) ~ (a :: b :: t) := List.Perm.swap a b t
    have hsM : b ∈ (b :: a :: t) := List.mem_cons_self _ _
    rw [← denomProd_congr hperm, denomProd_decrement hsM,
      actualValue_eq_denomProd_erase hsM, List.erase_cons_head]
    congr 1
    rw [List.count_cons_self, List.count_cons_of_ne (Ne.symm hne)]
  -- adjusted values in the numeric form
  have hAV : adjusted_value (a :: b :: t)
      = (sa + ρ + k + j + 1)! / ((k + 1)! * (j + 1)! * R) := by
    rw [adjusted_value]
    have hlen : (a :: b :: t).length - 1 = sa + ρ + k + j + 1 := by
      simp only [List.length_cons]
      omega
    rw [hlen, hDfact, ← Nat.mul_assoc]
  have hBV : adjusted_value (b :: t)
      = (k + 1) * (sa + ρ + k + j)! / ((k + 1)! * (j + 1)! * R) := by
    rw [adjusted_value]
    have hlen : (b :: t).length - 1 = sa + ρ + k + j := by
      simp only [List.length_cons]
      omega
    rw [hlen]
    have hmdm : (k + 1) * (sa + ρ + k + j)! / ((k + 1) * denomProd (b :: t))
        = (sa + ρ + k + j)! / denomProd (b :: t) :=
      Nat.mul_div_mul_left _ _ (by omega)
    rw [← hmdm, ← hDb, hDfact, ← Nat.mul_assoc]
  have hCV : adjusted_value (a :: t)
      = (j + 1) * (sa + ρ + k + j)! / ((k + 1)! * (j + 1)! * R) := by
    rw [adjusted_value]
    have hlen : (a :: t).length - 1 = sa + ρ + k + j := by
      simp only [List.length_cons]
      omega
    rw [hlen]
    have hmdm : (j + 1) * (sa + ρ + k + j)! / ((j + 1) * denomProd (a :: t))
        = (sa + ρ + k + j)! / denomProd (a :: t) :=
      Nat.mul_div_mul_left _ _ (by omega)
    rw [← hmdm, ← hDa, hDfact, ← Nat.mul_assoc]
  -- unfold the two rank sums and rewrite
  have hf1 : (b :: t).countP (fun x => x < a) = sa := by
    rw [List.countP_cons_of_neg]
    simp only [decide_eq_true_eq]
    exact not_lt.mpr hab.le
  have hf2 : (a :: t).countP (fun x => x < b) = sb + 1 := by
    rw [List.countP_cons_of_pos]
    simp only [decide_eq_true_eq]
    exact hab
  have hAV2 : adjusted_value (b :: a :: t) = adjusted_value (a :: b :: t) :=
    adjusted_value_congr (List.Perm.swap a b t)
  show (b :: t).countP (fun x => x < a) * adjusted_value (a :: b :: t)
      + ((t.countP (fun x => x < b)) * adjusted_value (b :: t) + rankSum t)
    < (a :: t).countP (fun x => x < b) * adjusted_value (b :: a :: t)
      + ((t.countP (fun x => x < a)) * adjusted_value (a :: t) + rankSum t)
  rw [hf1, hf2, hAV2, hAV, hBV, hCV, ← hsadef, ← hsbdef, hsb]
  have hnum := rank_swap_numeric k j sa e ρ R hR1 heρ hRu
  have hco : (sa + k + e + 1) * ((sa + ρ + k + j + 1)! / ((k + 1)! * (j + 1)! * R))
      = (1 + sa + k + e) * ((sa + ρ + k + j + 1)! / ((k + 1)! * (j + 1)! * R)) := by
    ring
  omega

end RankWord

namespace RankWord

open Nat List

theorem rankSum_swap {a b : Char} (hab : a < b) :
    ∀ p t : List Char, rankSum (p ++ a :: b :: t) < rankSum (p ++ b :: a :: t) := by
  intro p
  induction p with
  | nil =>
    intro t
    exact rankSum_swap_head hab t
  | cons c p ih =>
    intro t
    have hperm : (p ++ a :: b :: t) ~ (p ++ b :: a :: t) :=
      List.Perm.append_left p (List.Perm.swap b a t)
    show (p ++ a :: b :: t).countP (fun x => x < c)
          * adjusted_value (c :: (p ++ a :: b :: t))
        + rankSum (p ++ a :: b :: t)
      < (p ++ b :: a :: t).countP (fun x => x < c)
          * adjusted_value (c :: (p ++ b :: a :: t))
        + rankSum (p ++ b :: a :: t)
    rw [hperm.countP_eq, adjusted_value_congr (hperm.cons c)]
    exact Nat.add_lt_add_left (ih t) _

theorem total_rank_swap {a b : Char} (hab : a < b) (p t : List Char) :
    total_rank (p ++ a :: b :: t) < total_rank (p ++ b :: a :: t) := by
  rw [total_rank_eq_rankSum, total_rank_eq_rankSum]
  exact Nat.add_lt_add_right (rankSum_swap hab p t) 1

/-- The word with the adjacent positions `i` and `i + 1` exchanged (used to
state the monotonicity claim). -/
def swapAdj (w : List Char) (i : Nat) : List Char :=
  (w.set i (w.getD (i + 1) 'A')).set (i + 1) (w.getD i 'A')

theorem word_decomp {w : List Char} {i : Nat} (hi : i + 1 < w.length) :
    w = w.take i ++ w.getD i 'A' :: w.getD (i + 1) 'A' :: w.drop (i + 2) := by
  conv_lhs => rw [← List.take_append_drop i w]
  congr 1
  rw [drop_eq_getD_cons (by omega : i < w.length), drop_eq_getD_cons hi]

theorem swapAdj_eq {w : List Char} {i : Nat} (hi : i + 1 < w.length) :
    swapAdj w i
      = w.take i ++ w.getD (i + 1) 'A' :: w.getD i 'A' :: w.drop (i + 2) := by
  have hlt : i < w.length := by omega
  have htk : (w.take i).length = i := List.length_take_of_le (by omega)
  rw [swapAdj, List.set_eq_take_cons_drop _ hlt]
  have hlen2 : i + 1
      < (w.take i ++ w.getD (i + 1) 'A' :: w.drop (i + 1)).length := by
    rw [List.length_append, htk]
    simp only [List.length_cons, List.length_drop]
    omega
  rw [List.set_eq_take_cons_drop _ hlen2]
  have h1 : (w.take i ++ w.getD (i + 1) 'A' :: w.drop (i + 1)).take (i + 1)
      = w.take i ++ [w.getD (i + 1) 'A'] := by
    rw [show i + 1 = (w.take i).length + 1 by rw [htk], List.take_append,
      List.take_succ_cons, List.take_zero]
  have h2 : (w.take i ++ w.getD (i + 1) 'A' :: w.drop (i + 1)).drop (i + 2)
      = w.drop (i + 2) := by
    rw [show i + 2 = (w.take i).length + 2 by rw [htk], List.drop_append,
      show (2:Nat) = 1 + 1 from rfl, List.drop_succ_cons, List.drop_drop]
    congr 1
    omega
  rw [h1, h2, List.append_assoc]
  rfl

/-- C4 counterexample: in the word AB the letter at position 0 has strictly
lower LetterOrder rank than the letter at position 1, yet swapping the two
adjacent letters (giving BA) strictly increases total_rank from 1 to 2
instead of decreasing it as the claim states. -/
theorem swap_claim_counterexample :
    letterToRank ("AB".toList) 'A' < letterToRank ("AB".toList) 'B'
      ∧ swapAdj ("AB".toList) 0 = "BA".toList
      ∧ total_rank ("AB".toList) = 1
      ∧ total_rank ("BA".toList) = 2 := by
  decide

/-- C4 amended (the claim's two directions are swapped): for every valid
word and adjacent positions i, i+1, if Word[i] has strictly lower
LetterOrder rank than Word[i+1] then exchanging the two letters strictly
increases total_rank (the word moves later in the order), and if Word[i]
has strictly higher rank the exchange strictly decreases total_rank. -/
theorem swap_adjacent_monotone (w : List Char) (i : Nat)
    (hw : isValidWord w = true) (hi : i + 1 < w.length) :
    (letterToRank w (w.getD i 'A') < letterToRank w (w.getD (i + 1) 'A')
        → total_rank w < total_rank (swapAdj w i))
      ∧ (letterToRank w (w.getD (i + 1) 'A') < letterToRank w (w.getD i 'A')
        → total_rank (swapAdj w i) < total_rank w) := by
  have hxmem : w.getD i 'A' ∈ w := by
    rw [List.getD_eq_getElem _ _ (by omega : i < w.length)]
    exact List.getElem_mem _
  have hymem : w.getD (i + 1) 'A' ∈ w := by
    rw [List.getD_eq_getElem _ _ hi]
    exact List.getElem_mem _
  constructor
  · intro hr
    have hab : w.getD i 'A' < w.getD (i + 1) 'A' :=
      (letterToRank_lt_iff hxmem hymem).mp hr
    rw [swapAdj_eq hi]
    conv_lhs => rw [word_decomp hi]
    exact total_rank_swap hab _ _
  · intro hr
    have hab : w.getD (i + 1) 'A' < w.getD i 'A' :=
      (letterToRank_lt_iff hymem hxmem).mp hr
    rw [swapAdj_eq hi]
    conv_rhs => rw [word_decomp hi]
    exact total_rank_swap hab _ _

/-- Witness for `swap_adjacent_monotone`: swapping the two letters of AB
(where position 0 has the lower rank) strictly increases total_rank. -/
theorem swap_adjacent_monotone_witness :
    total_rank ("AB".toList) < total_rank (swapAdj ("AB".toList) 0) :=
  (swap_adjacent_monotone ("AB".toList) 0 (by decide) (by decide)).1 (by decide)

end RankWord
